import Mathlib

/-!
Verification of core djafs algorithms: lookup-log resolution (live and
snapshot views), lookup-table operations with Go value-receiver semantics,
archive validation and repair, the zip-boundary planner, and work-directory
deduplication.  Every definition is a shallow embedding of the corresponding
Go function; timestamps are modelled as integers, byte strings as `String`,
and fallible operations return `Option` or `Except`.
-/

/-- Model of `util.LookupEntry`: one record of the append-only lookup log.
`Modified` timestamps are modelled as integers (`time.Before`/`After`/`Equal`
become `<`, `>`, `=`).  An empty `target` denotes a deletion tombstone. -/
structure LookupEntry where
  fileSize : Int
  inode : Nat
  modified : Int
  name : String
  target : String
deriving DecidableEq

/-- Zero value of `util.LookupEntry`, as produced by `LookupEntry{}` in Go. -/
def zeroLookupEntry : LookupEntry :=
  { fileSize := 0, inode := 0, modified := 0, name := "", target := "" }

/-- Model of `util.LookupTable` as the caller observes it: the entry slice
contents plus the `sorted` flag. -/
structure LookupTable where
  entries : List LookupEntry
  sorted : Bool
deriving DecidableEq

/-! ## C1: live resolution (`FS.searchLookupTable`, part_001 lines 842-857) -/

/-- Model of `FS.searchLookupTable`: iterate the table in order and return
the first entry whose `Name` matches and whose `Target` is non-empty; the
not-found error is modelled as `none`.  Note the loop neither compares
`Modified` timestamps nor stops at tombstones. -/
def searchLookupTable : List LookupEntry → String → Option LookupEntry
  | [], _ => none
  | e :: rest, relativePath =>
    if e.name = relativePath ∧ e.target ≠ "" then some e
    else searchLookupTable rest relativePath

/-! ## C2: snapshot resolution (`FS.searchLookupTableAtTime`, part_001 lines 1156-1183) -/

/-- Condition `snapshotTime == nil || entry.Modified.Before(*snapshotTime) ||
entry.Modified.Equal(*snapshotTime)` from the loop body. -/
def withinSnapshot (snapshotTime : Option Int) (m : Int) : Bool :=
  match snapshotTime with
  | none => true
  | some t => decide (m ≤ t)

/-- Combined loop guard of `searchLookupTableAtTime`: the entry name matches
and the entry is within the snapshot time. -/
def matchesQuery (relativePath : String) (snapshotTime : Option Int) (e : LookupEntry) : Bool :=
  decide (e.name = relativePath) && withinSnapshot snapshotTime e.modified

/-- Update of the `latestEntry` accumulator: `latestEntry == nil ||
entry.Modified.After(latestEntry.Modified)` replaces the accumulator, so the
first entry among equal-`Modified` ties is kept. -/
def pickLater (latestEntry : Option LookupEntry) (e : LookupEntry) : Option LookupEntry :=
  match latestEntry with
  | none => some e
  | some l => if l.modified < e.modified then some e else some l

/-- Scan loop of `FS.searchLookupTableAtTime`: fold the table through the
guard and the accumulator update. -/
def searchAtTimeLoop (relativePath : String) (snapshotTime : Option Int) :
    List LookupEntry → Option LookupEntry → Option LookupEntry
  | [], latestEntry => latestEntry
  | e :: rest, latestEntry =>
    if matchesQuery relativePath snapshotTime e then
      searchAtTimeLoop relativePath snapshotTime rest (pickLater latestEntry e)
    else
      searchAtTimeLoop relativePath snapshotTime rest latestEntry

/-- Model of `FS.searchLookupTableAtTime`: run the scan loop, then return the
selected entry when its target is non-empty, and the not-found error
(modelled as `none`) otherwise. -/
def searchLookupTableAtTime (entries : List LookupEntry) (relativePath : String)
    (snapshotTime : Option Int) : Option LookupEntry :=
  match searchAtTimeLoop relativePath snapshotTime entries none with
  | some latestEntry => if latestEntry.target ≠ "" then some latestEntry else none
  | none => none

/-- Entries the scan considers: name matches and `modified` is within the
snapshot time. -/
def snapshotCandidates (entries : List LookupEntry) (relativePath : String)
    (snapshotTime : Option Int) : List LookupEntry :=
  entries.filter (matchesQuery relativePath snapshotTime)

theorem searchAtTimeLoop_eq_foldl (relativePath : String) (snapshotTime : Option Int)
    (es : List LookupEntry) (acc : Option LookupEntry) :
    searchAtTimeLoop relativePath snapshotTime es acc =
      (snapshotCandidates es relativePath snapshotTime).foldl pickLater acc := by
  induction es generalizing acc with
  | nil => simp [searchAtTimeLoop, snapshotCandidates]
  | cons e rest ih =>
    by_cases h : matchesQuery relativePath snapshotTime e = true
    · simp [searchAtTimeLoop, snapshotCandidates, h, List.filter_cons, ih]
    · simp only [Bool.not_eq_true] at h
      simp [searchAtTimeLoop, snapshotCandidates, h, List.filter_cons, ih]

theorem foldl_pickLater_some (l : List LookupEntry) (a : LookupEntry) :
    ∃ b, l.foldl pickLater (some a) = some b ∧ (b ∈ l ∨ b = a) ∧
      a.modified ≤ b.modified ∧ ∀ c ∈ l, c.modified ≤ b.modified := by
  induction l generalizing a with
  | nil => exact ⟨a, rfl, Or.inr rfl, le_refl _, by simp⟩
  | cons x xs ih =>
    by_cases h : a.modified < x.modified
    · obtain ⟨b, hb, hmem, hle, hall⟩ := ih x
      refine ⟨b, ?_, ?_, le_of_lt (lt_of_lt_of_le h hle), ?_⟩
      · simpa [pickLater, h] using hb
      · rcases hmem with hm | hm
        · exact Or.inl (List.mem_cons_of_mem _ hm)
        · exact Or.inl (hm ▸ List.mem_cons_self _ _)
      · intro c hc
        rcases List.mem_cons.mp hc with hc | hc
        · exact hc ▸ hle
        · exact hall c hc
    · obtain ⟨b, hb, hmem, hle, hall⟩ := ih a
      refine ⟨b, ?_, ?_, hle, ?_⟩
      · simpa [pickLater, h] using hb
      · rcases hmem with hm | hm
        · exact Or.inl (List.mem_cons_of_mem _ hm)
        · exact Or.inr hm
      · intro c hc
        rcases List.mem_cons.mp hc with hc | hc
        · exact hc ▸ le_trans (le_of_not_lt h) hle
        · exact hall c hc

theorem foldl_pickLater_of_ne_nil (l : List LookupEntry) (hne : l ≠ []) :
    ∃ b, l.foldl pickLater none = some b ∧ b ∈ l ∧
      ∀ c ∈ l, c.modified ≤ b.modified := by
  match l with
  | [] => exact absurd rfl hne
  | x :: xs =>
    obtain ⟨b, hb, hmem, hxle, hall⟩ := foldl_pickLater_some xs x
    refine ⟨b, by simpa [pickLater] using hb, ?_, ?_⟩
    · rcases hmem with hm | hm
      · exact List.mem_cons_of_mem _ hm
      · exact hm ▸ List.mem_cons_self _ _
    · intro c hc
      rcases List.mem_cons.mp hc with hc | hc
      · exact hc ▸ hxle
      · exact hall c hc

theorem foldl_pickLater_keep (xs : List LookupEntry) (b : LookupEntry)
    (h : ∀ d ∈ xs, ¬ b.modified < d.modified) :
    xs.foldl pickLater (some b) = some b := by
  induction xs with
  | nil => rfl
  | cons x rest ih =>
    have hx : ¬ b.modified < x.modified := h x (List.mem_cons_self _ _)
    simp only [List.foldl_cons, pickLater, hx, if_false]
    exact ih fun d hd => h d (List.mem_cons_of_mem _ hd)

theorem foldl_pickLater_strict_max (l : List LookupEntry) (c : LookupEntry)
    (hc : c ∈ l) (hmax : ∀ d ∈ l, d = c ∨ d.modified < c.modified) :
    l.foldl pickLater none = some c := by
  have main : ∀ xs : List LookupEntry, ∀ a : LookupEntry, c ∈ xs →
      (∀ d ∈ xs, d = c ∨ d.modified < c.modified) → a.modified < c.modified →
      xs.foldl pickLater (some a) = some c := by
    intro xs
    induction xs with
    | nil => intro a hmem; exact absurd hmem (List.not_mem_nil _)
    | cons x rest ih =>
      intro a hmem hall ha
      by_cases hxc : x = c
      · subst hxc
        simp only [List.foldl_cons, pickLater, ha, if_true]
        exact foldl_pickLater_keep rest x fun d hd => by
          rcases hall d (List.mem_cons_of_mem _ hd) with h | h
          · subst h; exact lt_irrefl _
          · exact not_lt.mpr (le_of_lt h)
      · have hxlt : x.modified < c.modified := by
          rcases hall x (List.mem_cons_self _ _) with h | h
          · exact absurd h hxc
          · exact h
        have hcrest : c ∈ rest := by
          rcases List.mem_cons.mp hmem with h | h
          · exact absurd h.symm hxc
          · exact h
        simp only [List.foldl_cons, pickLater]
        by_cases hax : a.modified < x.modified
        · simp only [hax, if_true]
          exact ih x hcrest (fun d hd => hall d (List.mem_cons_of_mem _ hd)) hxlt
        · simp only [hax, if_false]
          exact ih a hcrest (fun d hd => hall d (List.mem_cons_of_mem _ hd)) ha
  match l, hc with
  | x :: xs, hc =>
    simp only [List.foldl_cons, pickLater]
    by_cases hxc : x = c
    · subst hxc
      exact foldl_pickLater_keep xs x fun d hd => by
        rcases hmax d (List.mem_cons_of_mem _ hd) with h | h
        · subst h; exact lt_irrefl _
        · exact not_lt.mpr (le_of_lt h)
    · have hxlt : x.modified < c.modified := by
        rcases hmax x (List.mem_cons_self _ _) with h | h
        · exact absurd h hxc
        · exact h
      have hcrest : c ∈ xs := by
        rcases List.mem_cons.mp hc with h | h
        · exact absurd h.symm hxc
        · exact h
      exact main xs x hcrest (fun d hd => hmax d (List.mem_cons_of_mem _ hd)) hxlt

theorem mem_snapshotCandidates (entries : List LookupEntry) (r : String) (t : Option Int)
    (e : LookupEntry) (he : e ∈ snapshotCandidates entries r t) :
    e.name = r ∧ withinSnapshot t e.modified = true := by
  have := List.of_mem_filter he
  simp only [matchesQuery, Bool.and_eq_true, decide_eq_true_eq] at this
  exact this

/-- C2: snapshot resolution considers exactly the entries with the requested
name and `modified ≤ t`, selects one of maximal `modified`, returns it when
its target is non-empty, and reports not-found exactly when there is no
candidate or the selected maximal candidate is a tombstone; when a candidate
strictly dominates all others and is not a tombstone, it is returned. -/
theorem searchLookupTableAtTime_spec (entries : List LookupEntry) (r : String) (t : Int) :
    (∀ e, searchLookupTableAtTime entries r (some t) = some e →
        e.name = r ∧ e.modified ≤ t ∧ e.target ≠ "" ∧ e ∈ snapshotCandidates entries r (some t) ∧
        ∀ c ∈ snapshotCandidates entries r (some t), c.modified ≤ e.modified)
  ∧ (searchLookupTableAtTime entries r (some t) = none →
        snapshotCandidates entries r (some t) = [] ∨
        ∃ c ∈ snapshotCandidates entries r (some t), c.target = "" ∧
          ∀ d ∈ snapshotCandidates entries r (some t), d.modified ≤ c.modified)
  ∧ (∀ c ∈ snapshotCandidates entries r (some t),
        (∀ d ∈ snapshotCandidates entries r (some t), d = c ∨ d.modified < c.modified) →
        c.target ≠ "" → searchLookupTableAtTime entries r (some t) = some c) := by
  set cands := snapshotCandidates entries r (some t) with hcands
  have hloop : searchAtTimeLoop r (some t) entries none = cands.foldl pickLater none :=
    searchAtTimeLoop_eq_foldl r (some t) entries none
  refine ⟨?_, ?_, ?_⟩
  · intro e he
    unfold searchLookupTableAtTime at he
    rw [hloop] at he
    rcases hfold : cands.foldl pickLater none with _ | b
    · rw [hfold] at he; exact Option.noConfusion he
    · rw [hfold] at he
      replace he : (if b.target ≠ "" then some b else none) = some e := he
      by_cases htgt : b.target ≠ ""
      · rw [if_pos htgt] at he
        have hbe : b = e := by injection he
        subst hbe
        have hne : cands ≠ [] := by
          intro hnil
          rw [hnil] at hfold
          exact Option.noConfusion hfold
        obtain ⟨b2, hb2, hmem, hall⟩ := foldl_pickLater_of_ne_nil cands hne
        rw [hfold] at hb2
        have hb2b : b = b2 := by injection hb2
        subst hb2b
        obtain ⟨hname, hwithin⟩ := mem_snapshotCandidates entries r (some t) b hmem
        simp only [withinSnapshot, decide_eq_true_eq] at hwithin
        exact ⟨hname, hwithin, htgt, hmem, hall⟩
      · rw [if_neg htgt] at he
        exact Option.noConfusion he
  · intro hnone
    unfold searchLookupTableAtTime at hnone
    rw [hloop] at hnone
    rcases hfold : cands.foldl pickLater none with _ | b
    · left
      by_contra hne
      obtain ⟨b2, hb2, _, _⟩ := foldl_pickLater_of_ne_nil cands hne
      rw [hfold] at hb2
      exact Option.noConfusion hb2
    · right
      rw [hfold] at hnone
      replace hnone : (if b.target ≠ "" then some b else none) = none := hnone
      by_cases htgt : b.target ≠ ""
      · rw [if_pos htgt] at hnone
        exact Option.noConfusion hnone
      · have hne : cands ≠ [] := by
          intro hnil
          rw [hnil] at hfold
          exact Option.noConfusion hfold
        obtain ⟨b2, hb2, hmem, hall⟩ := foldl_pickLater_of_ne_nil cands hne
        rw [hfold] at hb2
        have hb2b : b = b2 := by injection hb2
        subst hb2b
        simp only [ne_eq, not_not] at htgt
        exact ⟨b, hmem, htgt, hall⟩
  · intro c hcmem hstrict htgt
    unfold searchLookupTableAtTime
    rw [hloop, foldl_pickLater_strict_max cands c hcmem hstrict]
    show (if c.target ≠ "" then some c else none) = some c
    rw [if_pos htgt]

/-- Sample entry used by closed witnesses below. -/
def snapEntryX : LookupEntry :=
  { fileSize := 3, inode := 1, modified := 1, name := "a", target := "x" }

/-- Closed instance of `searchLookupTableAtTime_spec`: a single matching
entry within the snapshot time is returned with all stated properties. -/
theorem searchLookupTableAtTime_spec_witness :
    snapEntryX.name = "a" ∧ snapEntryX.modified ≤ 5 ∧ snapEntryX.target ≠ "" := by
  have h := (searchLookupTableAtTime_spec [snapEntryX] "a" 5).1 snapEntryX (by decide)
  exact ⟨h.1, h.2.1, h.2.2.1⟩

/-! ## C1: the live view ignores newer entries and tombstones (code bug) -/

/-- Older live entry for name `a`. -/
def liveEntryA : LookupEntry :=
  { fileSize := 3, inode := 1, modified := 1, name := "a", target := "t1" }

/-- Newer tombstone for name `a`: the most recent entry, with empty target. -/
def liveTombA : LookupEntry :=
  { fileSize := 0, inode := 2, modified := 2, name := "a", target := "" }

/-- C1: on a log whose most recent entry for `a` is a tombstone,
`searchLookupTable` (the `/live` resolution path) returns the older
non-tombstone entry instead of reporting not-found: the loop returns the
first name match with non-empty target and never compares `modified`.  The
claimed behavior (return the greatest-`modified` entry, not-found iff it is
a tombstone) fails on this input. -/
theorem searchLookupTable_ignores_newer_tombstone :
    searchLookupTable [liveEntryA, liveTombA] "a" = some liveEntryA ∧
    liveTombA.name = "a" ∧ liveEntryA.modified < liveTombA.modified ∧
    liveTombA.target = "" := by
  refine ⟨?_, rfl, by decide, rfl⟩
  decide

/-! ## C10: `LookupTable.Get` totality (hasher.go lines 469-474) -/

/-- Model of `LookupTable.Get`: a negative or too-large index yields the zero
`LookupEntry`; otherwise the stored entry is returned.  The Go `int` index is
modelled as `Int`. -/
def LookupTable.Get (e : LookupTable) (index : Int) : LookupEntry :=
  if index < 0 ∨ (e.entries.length : Int) ≤ index then zeroLookupEntry
  else e.entries.getD index.toNat zeroLookupEntry

/-- C10: `Get` is total: for an in-range index it returns the stored entry,
and for any negative or too-large index it returns the zero entry rather
than failing. -/
theorem LookupTable_Get_total (e : LookupTable) (index : Int) :
    (0 ≤ index → index < (e.entries.length : Int) →
        e.entries.get? index.toNat = some (e.Get index))
  ∧ ((index < 0 ∨ (e.entries.length : Int) ≤ index) → e.Get index = zeroLookupEntry) := by
  constructor
  · intro h0 hlt
    have hnat : index.toNat < e.entries.length := by omega
    have hcond : ¬ (index < 0 ∨ (e.entries.length : Int) ≤ index) := by omega
    simp only [LookupTable.Get, hcond, if_false]
    rw [List.getD_eq_getElem?_getD, List.get?_eq_getElem?, List.getElem?_eq_getElem hnat]
    rfl
  · intro h
    simp only [LookupTable.Get, h, if_true]

/-- Closed instance of `LookupTable_Get_total`: at a one-entry table, index 0
returns the stored entry and indices -1 and 1 return the zero entry. -/
theorem LookupTable_Get_total_witness :
    (⟨[liveEntryA], true⟩ : LookupTable).Get 0 = liveEntryA ∧
    (⟨[liveEntryA], true⟩ : LookupTable).Get (-1) = zeroLookupEntry ∧
    (⟨[liveEntryA], true⟩ : LookupTable).Get 1 = zeroLookupEntry := by
  refine ⟨?_, ?_, ?_⟩
  · have h := (LookupTable_Get_total ⟨[liveEntryA], true⟩ 0).1 (by decide) (by decide)
    simpa using h.symm
  · exact (LookupTable_Get_total ⟨[liveEntryA], true⟩ (-1)).2 (by decide)
  · exact (LookupTable_Get_total ⟨[liveEntryA], true⟩ 1).2 (by decide)

/-! ## Go slice semantics for the value-receiver methods (hasher.go lines 456-491) -/

/-- Go slice header over `LookupEntry` backing arrays: the id of the backing
array in the heap (`none` for the nil slice) and the length.  The capacity
is the length of the backing array stored in the heap. -/
structure GoSlice where
  arrId : Option Nat
  len : Nat
deriving DecidableEq

/-- Heap of backing arrays: index = array id, stored list = the full
capacity contents of that array. -/
abbrev EntryHeap := List (List LookupEntry)

/-- Backing array of a slice (empty for the nil slice or a dangling id). -/
def arrOf (h : EntryHeap) : Option Nat → List LookupEntry
  | none => []
  | some i => h.getD i []

/-- Caller-visible contents of a slice: the first `len` elements of its
backing array. -/
def sliceView (h : EntryHeap) (s : GoSlice) : List LookupEntry :=
  (arrOf h s.arrId).take s.len

/-- Effect of Go `append(s, x)`: write in place at index `len` when capacity
remains, otherwise allocate a fresh backing array holding the old contents
plus `x`.  Returns the updated heap and the slice header the callee now
holds; the caller's own header is unaffected either way. -/
def goAppend (h : EntryHeap) (s : GoSlice) (x : LookupEntry) : EntryHeap × GoSlice :=
  match s.arrId with
  | some i =>
    if s.len < (h.getD i []).length then
      (h.set i ((h.getD i []).set s.len x), ⟨some i, s.len + 1⟩)
    else
      (h ++ [sliceView h s ++ [x]], ⟨some h.length, s.len + 1⟩)
  | none => (h ++ [sliceView h s ++ [x]], ⟨some h.length, s.len + 1⟩)

/-- The `util.LookupTable` struct as the Go runtime lays it out: a slice
header plus the `sorted` flag.  `sliceView` recovers the logical table the
caller observes. -/
structure SliceTable where
  entries : GoSlice
  sorted : Bool
deriving DecidableEq

/-- Model of `func (e LookupTable) Add(le LookupEntry)` (hasher.go 456-459).
Go passes the receiver by value: the body sets `sorted` to false and appends
on the method-local copy; only heap writes are shared with the caller.  The
result is the heap after the call together with the final state of the
method-local copy (which Go then discards); the caller's variable still
holds the original header and flag. -/
def SliceTable.Add (e : SliceTable) (h : EntryHeap) (le : LookupEntry) :
    EntryHeap × SliceTable :=
  let e1 : SliceTable := { e with sorted := false }
  let r := goAppend h e1.entries le
  (r.1, { e1 with entries := r.2 })

/-- Insertion of an entry into a list kept ascending by `modified`. -/
def insertByModified (x : LookupEntry) : List LookupEntry → List LookupEntry
  | [] => [x]
  | y :: ys => if x.modified < y.modified then x :: y :: ys else y :: insertByModified x ys

/-- Ascending reordering by `modified`.  Go's `sort.Sort` with
`Less = Modified.Before` guarantees the slice ends up in nondecreasing
`modified` order; its unstable introsort coincides with this reordering
whenever the keys are pairwise distinct, which is the only case the
theorems below evaluate it at. -/
def sortSortByModified : List LookupEntry → List LookupEntry
  | [] => []
  | x :: xs => insertByModified x (sortSortByModified xs)

/-- Write a reordered view back over positions `0..len` of a slice's
backing array, as the in-place `Swap`s of `sort.Sort` do. -/
def writeBackSlice (h : EntryHeap) (s : GoSlice) (xs : List LookupEntry) : EntryHeap :=
  match s.arrId with
  | none => h
  | some i => h.set i (xs ++ (h.getD i []).drop s.len)

/-- Model of `func (e LookupTable) Sort()` (hasher.go 476-479).  `sort.Sort`
permutes the shared backing array through `Swap`, so the caller sees the
reordering, but the `sorted = true` assignment lands on the method-local
copy only: the caller's flag keeps its old value. -/
def SliceTable.Sort (e : SliceTable) (h : EntryHeap) : EntryHeap × SliceTable :=
  (writeBackSlice h e.entries (sortSortByModified (sliceView h e.entries)),
   { e with sorted := true })

theorem take_set_of_le {α : Type} (l : List α) (n m : Nat) (a : α) (hnm : m ≤ n) :
    (l.set n a).take m = l.take m := by
  induction l generalizing n m with
  | nil => simp
  | cons x xs ih =>
    cases n with
    | zero =>
      have hm : m = 0 := Nat.le_zero.mp hnm
      subst hm; simp
    | succ n =>
      cases m with
      | zero => simp
      | succ m =>
        simp only [List.set_cons_succ, List.take_succ_cons, List.cons.injEq, true_and]
        exact ih n m (Nat.succ_le_succ_iff.mp hnm)

/-- The caller never sees the entry appended by the value-receiver `Add`:
its own slice header is unchanged and the positions below its length are
untouched by the heap write. -/
theorem sliceView_after_Add (h : EntryHeap) (t : SliceTable) (le : LookupEntry)
    (hwf : ∀ i, t.entries.arrId = some i → i < h.length) :
    sliceView (t.Add h le).1 t.entries = sliceView h t.entries := by
  rcases hs : t.entries.arrId with _ | i
  · simp [SliceTable.Add, goAppend, sliceView, arrOf, hs]
  · have hi : i < h.length := hwf i hs
    by_cases hcap : t.entries.len < (h.getD i []).length
    · simp only [SliceTable.Add, goAppend, hs, hcap, if_true, sliceView, arrOf]
      have hgetset : (h.set i ((h.getD i []).set t.entries.len le)).getD i [] =
          (h.getD i []).set t.entries.len le := by
        simp [List.getD_eq_getElem?_getD, List.getElem?_set_self, hi]
      rw [hgetset]
      exact take_set_of_le _ _ _ _ (le_refl _)
    · simp only [SliceTable.Add, goAppend, hs, hcap, if_false, sliceView, arrOf]
      congr 1
      simp [List.getD_eq_getElem?_getD, List.getElem?_append_left, hi]

/-- Heap and caller-side table for the Add and Sort counterexamples: one
backing array holding one live entry with spare capacity. -/
def addHeap : EntryHeap := [[liveEntryA, zeroLookupEntry]]

/-- Caller-side table before the Add call: one entry, `sorted` flag true. -/
def addTable : SliceTable := ⟨⟨some 0, 1⟩, true⟩

/-- C5: `Add` with its value receiver is invisible to the caller.  After the
call the caller's table still shows exactly the old single entry and its
`sorted` flag is still `true`, not `false`; the appended entry and the flag
reset exist only on the discarded method-local copy.  The claimed behavior
(entry appended to the caller's table, flag false) fails on this input; the
repo's own lookup-table tests require the pointer-receiver behavior. -/
theorem Add_not_visible_to_caller :
    sliceView (addTable.Add addHeap liveTombA).1 addTable.entries = [liveEntryA] ∧
    addTable.sorted = true ∧
    sliceView (addTable.Add addHeap liveTombA).1 (addTable.Add addHeap liveTombA).2.entries
      = [liveEntryA, liveTombA] ∧
    (addTable.Add addHeap liveTombA).2.sorted = false := by
  decide

/-- Backing heap for the Sort counterexample: two entries with distinct
`modified` keys, stored in descending order. -/
def sortHeap : EntryHeap := [[liveTombA, liveEntryA]]

/-- Caller-side table before the Sort call. -/
def sortTable : SliceTable := ⟨⟨some 0, 2⟩, false⟩

/-- C4: `Sort` reorders the caller-visible entries ascending by `modified`
(the swaps act on the shared backing array), but the `sorted = true`
assignment lands on the method-local copy only: the caller's flag remains
`false`, contradicting the claim and the repo's own
TestLookupTable_Sort_PersistsState. -/
theorem Sort_flag_not_visible_to_caller :
    sliceView (sortTable.Sort sortHeap).1 sortTable.entries = [liveEntryA, liveTombA] ∧
    (sortTable.Sort sortHeap).2.sorted = true ∧
    sortTable.sorted = false := by
  decide

/-! ## cleanLookupTable (validate.go lines 644-669) -/

/-- Loop of `cleanLookupTable`.  The local variable `cleaned` starts as the
zero `util.LookupTable` (nil slice).  Each kept entry is passed to
`cleaned.Add(entry)`: the value-receiver call may write to the heap, but a
Go method call cannot rebind the variable `cleaned` itself, so the loop
state carries an unchanged `cleaned` and only threads the heap and the
removed counter. -/
def cleanLookupTableLoop (filesInArchive : List String) (cleaned : SliceTable) :
    List LookupEntry → EntryHeap → Nat → EntryHeap × Nat
  | [], h, removed => (h, removed)
  | entry :: rest, h, removed =>
    if entry.target = "" then
      cleanLookupTableLoop filesInArchive cleaned rest (cleaned.Add h entry).1 removed
    else if entry.target ∈ filesInArchive then
      cleanLookupTableLoop filesInArchive cleaned rest (cleaned.Add h entry).1 removed
    else
      cleanLookupTableLoop filesInArchive cleaned rest h (removed + 1)

/-- Model of `cleanLookupTable` (validate.go 646-669): returns the
caller-visible cleaned table (read back through `sliceView` from the
variable `cleaned`) and the count of removed entries. -/
def cleanLookupTable (ltEntries : List LookupEntry) (filesInArchive : List String)
    (h : EntryHeap) : LookupTable × Nat :=
  let cleaned : SliceTable := ⟨⟨none, 0⟩, false⟩
  let r := cleanLookupTableLoop filesInArchive cleaned ltEntries h 0
  (⟨sliceView r.1 cleaned.entries, cleaned.sorted⟩, r.2)

/-- The cleaned table `cleanLookupTable` returns is always empty: the
value-receiver `Add` never reaches the local variable `cleaned`, so every
entry - tombstones included - is dropped from the rewritten log. -/
theorem cleanLookupTable_entries_nil (es : List LookupEntry) (fs : List String)
    (h : EntryHeap) : (cleanLookupTable es fs h).1.entries = [] := rfl

theorem cleanLookupTableLoop_removed (fs : List String) (cleaned : SliceTable)
    (es : List LookupEntry) : ∀ h rm, (cleanLookupTableLoop fs cleaned es h rm).2 =
      rm + es.countP (fun e => decide (e.target ≠ "" ∧ e.target ∉ fs)) := by
  induction es with
  | nil => intro h rm; simp [cleanLookupTableLoop]
  | cons e rest ih =>
    intro h rm
    by_cases h1 : e.target = ""
    · simp [cleanLookupTableLoop, h1, ih, List.countP_cons]
    · by_cases h2 : e.target ∈ fs
      · simp [cleanLookupTableLoop, h1, h2, ih, List.countP_cons]
      · have hp : decide (e.target ≠ "" ∧ e.target ∉ fs) = true := by
          simp [h1, h2]
        simp only [cleanLookupTableLoop, if_neg h1, if_neg h2]
        rw [ih, List.countP_cons]
        simp [hp]
        omega

theorem cleanLookupTable_removed (es : List LookupEntry) (fs : List String)
    (h : EntryHeap) : (cleanLookupTable es fs h).2 =
      es.countP (fun e => decide (e.target ≠ "" ∧ e.target ∉ fs)) := by
  unfold cleanLookupTable
  simpa using cleanLookupTableLoop_removed fs ⟨⟨none, 0⟩, false⟩ es h 0

/-! ## Archive model, validateArchive, previewRepair, repairArchive
(validate.go lines 263-669) -/

/-- Model of `util.Metadata` (part_019): the two counts validateArchive
compares plus the remaining record fields. -/
structure Metadata where
  compressedSize : Int
  djafsVersion : String
  newestFileTS : Int
  oldestFileTS : Int
  targetFileCount : Int
  totalFileCount : Int
  uncompressedSize : Int
deriving DecidableEq

/-- Model of `LookupTable.GetTotalFileCount`: the number of distinct entry
names (the Go code counts keys of a map). -/
def GetTotalFileCount (entries : List LookupEntry) : Nat :=
  ((entries.map fun e => e.name).dedup).length

/-- Model of `LookupTable.GetTargetFileCount`: the number of distinct entry
targets (tombstones contribute the empty-string key). -/
def GetTargetFileCount (entries : List LookupEntry) : Nat :=
  ((entries.map fun e => e.target).dedup).length

/-- Model of `LookupTable.GetUncompressedSize`: the sum of entry sizes. -/
def GetUncompressedSize (entries : List LookupEntry) : Int :=
  entries.foldl (fun total e => total + e.fileSize) 0

/-- Model of `LookupTable.GetOldestFileTS` as used from GenerateMetadata:
the first entry of the ascending reordering, zero time for an empty log. -/
def GetOldestFileTS (entries : List LookupEntry) : Int :=
  match sortSortByModified entries with
  | [] => 0
  | e :: _ => e.modified

/-- Model of `LookupTable.GetNewestFileTS`: the last entry of the ascending
reordering, zero time for an empty log. -/
def GetNewestFileTS (entries : List LookupEntry) : Int :=
  ((sortSortByModified entries).getLast?).elim 0 fun e => e.modified

/-- Model of `LookupTable.GenerateMetadata("")` (part_019 lines 35-51): with
an empty path the compressed size stays zero and no error occurs; the
version stamp is the external version string, modelled as the constant
`development`. -/
def GenerateMetadata (lt : LookupTable) : Metadata :=
  { compressedSize := 0
    djafsVersion := "development"
    newestFileTS := GetNewestFileTS lt.entries
    oldestFileTS := GetOldestFileTS lt.entries
    targetFileCount := (GetTargetFileCount lt.entries : Int)
    totalFileCount := (GetTotalFileCount lt.entries : Int)
    uncompressedSize := GetUncompressedSize lt.entries }

/-- Model of a `.djfz` archive: at most one lookup log, at most one
metadata record, and blob entries identified by name.  JSON is not
re-modelled: an embedded log or metadata record is stored structurally, so
the parse-failure flavor of ArchiveCorrupted cannot arise inside the
model. -/
structure GoArchive where
  lookups : Option LookupTable
  metadata : Option Metadata
  blobs : List String
deriving DecidableEq

/-- Entry names present in the archive: the `archiveFiles` set that
validateArchive builds while scanning the container. -/
def archiveFileNames (a : GoArchive) : List String :=
  (if a.lookups.isSome then ["lookups.djfl"] else []) ++
  (if a.metadata.isSome then ["metadata.djfm"] else []) ++ a.blobs

/-- Targets of non-tombstone entries: `referencedFiles` in validateArchive
and `validTargets` in repairArchive are built by this same loop. -/
def referencedTargets (entries : List LookupEntry) : List String :=
  (entries.filter fun e => decide (e.target ≠ "")).map fun e => e.target

/-- Validation errors reported by validateArchive. -/
inductive VErr where
  | archiveCorrupted
  | missingLookup
  | missingMetadata
  | orphanedFile (name : String)
  | missingTarget (target : String)
  | metadataMismatch (context : String)
deriving DecidableEq

/-- Model of `validateArchive` (validate.go 263-362): missing-entry checks,
per-entry missing-target errors, orphaned blobs, and the two metadata count
comparisons. The orphan loop ranges over the `archiveFiles` map, so a blob
name occurring in several zip entries yields one OrphanedFile error per
distinct name; hence the `dedup` on the blob-name list. -/
def validateArchive (a : GoArchive) : List VErr :=
  (if a.lookups.isNone then [VErr.missingLookup] else []) ++
  (if a.metadata.isNone then [VErr.missingMetadata] else []) ++
  (match a.lookups with
   | none => []
   | some lt =>
     ((lt.entries.filter fun e =>
         decide (e.target ≠ "" ∧ e.target ∉ archiveFileNames a)).map
        fun e => VErr.missingTarget e.target) ++
     ((a.blobs.dedup.filter fun b => decide (b ∉ referencedTargets lt.entries)).map
        VErr.orphanedFile) ++
     (match a.metadata with
      | none => []
      | some m =>
        (if (GetTotalFileCount lt.entries : Int) ≠ m.totalFileCount
         then [VErr.metadataMismatch "TotalFileCount"] else []) ++
        (if (GetTargetFileCount lt.entries : Int) ≠ m.targetFileCount
         then [VErr.metadataMismatch "TargetFileCount"] else [])))

/-- Model of `RepairStats` (validate.go 54-58). -/
structure RepairStats where
  metadataRegenerated : Bool
  orphanedFilesRemoved : Nat
  missingEntriesFixed : Nat
deriving DecidableEq

/-- Zero value of RepairStats. -/
def zeroRepairStats : RepairStats := ⟨false, 0, 0⟩

/-- One arm of previewRepair's switch over a validation error. -/
def previewStep (stats : RepairStats) (verr : VErr) : RepairStats :=
  match verr with
  | .archiveCorrupted => stats
  | .missingLookup => stats
  | .missingMetadata => { stats with metadataRegenerated := true }
  | .metadataMismatch _ => { stats with metadataRegenerated := true }
  | .orphanedFile _ =>
      { stats with orphanedFilesRemoved := stats.orphanedFilesRemoved + 1 }
  | .missingTarget _ =>
      { stats with missingEntriesFixed := stats.missingEntriesFixed + 1 }

/-- Model of `previewRepair` (validate.go 375-402): a pure fold over the
validation errors; it opens and writes no files. -/
def previewRepair (validationErrors : List VErr) : RepairStats :=
  validationErrors.foldl previewStep zeroRepairStats

/-- Error classification used by repairArchive: metadata regeneration. -/
def isMetaErr : VErr → Bool
  | .missingMetadata => true
  | .metadataMismatch _ => true
  | _ => false

/-- Error classification used by repairArchive: lookup cleanup. -/
def isCleanupErr : VErr → Bool
  | .orphanedFile _ => true
  | .missingTarget _ => true
  | _ => false

/-- Error classification used by repairArchive: unrecoverable. -/
def isUnrecoverableErr : VErr → Bool
  | .archiveCorrupted => true
  | .missingLookup => true
  | _ => false

/-- Orphaned-file errors, for counting. -/
def isOrphanErr : VErr → Bool
  | .orphanedFile _ => true
  | _ => false

/-- Missing-target errors, for counting. -/
def isMissingTargetErr : VErr → Bool
  | .missingTarget _ => true
  | _ => false

/-- Environment of one repairArchive run: the archive, its on-disk size,
the device's actually available bytes, whether the Statfs query succeeds,
and whether the per-archive lock file already exists. -/
structure RepairEnv where
  archive : GoArchive
  archiveSize : Nat
  availableBytes : Nat
  statfsSucceeds : Bool
  lockExists : Bool
deriving DecidableEq

/-- Errors repairArchive can return in the model. -/
inductive RepairErr where
  | insufficientSpace
  | locked
deriving DecidableEq

/-- Outcome of repairArchive: the stats, the returned error, the repaired
archive that replaced the original (`none` when no swap happened), whether
the original was renamed to `.bak`, and whether a temp archive was
written. -/
structure RepairOutcome where
  stats : RepairStats
  error : Option RepairErr
  newArchive : Option GoArchive
  renamedBackup : Bool
  wroteTemp : Bool
deriving DecidableEq

/-- Rewrite section of `repairArchive` (validate.go 474-614), entered once
the checks pass: the new archive is written to a temp file (blobs not in
`validTargets` dropped when cleaning, counted as orphans removed), the
lookup log is replaced by the result of cleanLookupTable when cleaning,
metadata is regenerated from the written table, and the two renames swap
the repaired archive in. -/
def repairRewrite (env : RepairEnv)
    (needsMetadataRegeneration needsLookupCleanup : Bool) : RepairOutcome :=
  let lt := env.archive.lookups.getD ⟨[], false⟩
  let validTargets := referencedTargets lt.entries
  let keptBlobs :=
    if needsLookupCleanup then
      env.archive.blobs.filter fun b => decide (b ∈ validTargets)
    else env.archive.blobs
  let orphanedRemoved :=
    if needsLookupCleanup then
      (env.archive.blobs.filter fun b => decide (b ∉ validTargets)).length
    else 0
  let cleaned :=
    if needsLookupCleanup then cleanLookupTable lt.entries keptBlobs []
    else (lt, 0)
  let writtenTable := cleaned.1
  let newArchive : GoArchive :=
    { lookups := some writtenTable
      metadata := some (GenerateMetadata writtenTable)
      blobs := keptBlobs }
  ⟨⟨needsMetadataRegeneration, orphanedRemoved, cleaned.2⟩, none, some newArchive,
    true, true⟩

/-- Model of `repairArchive` (validate.go 406-615).  Early returns: with an
unrecoverable error or nothing to repair the function returns zero stats
and no error without touching the disk.  The space check only blocks when
`getAvailableDiskSpace` succeeds: on a Statfs failure the code logs a
warning and proceeds.  An existing lock file fails the run before any
write; otherwise the rewrite section runs. -/
def repairArchive (env : RepairEnv) (validationErrors : List VErr) : RepairOutcome :=
  let needsMetadataRegeneration := validationErrors.any isMetaErr
  let needsLookupCleanup := validationErrors.any isCleanupErr
  let hasUnrecoverableErrors := validationErrors.any isUnrecoverableErr
  if hasUnrecoverableErrors then ⟨zeroRepairStats, none, none, false, false⟩
  else if needsMetadataRegeneration = false ∧ needsLookupCleanup = false then
    ⟨zeroRepairStats, none, none, false, false⟩
  else if env.statfsSucceeds = true ∧ env.availableBytes < 2 * env.archiveSize then
    ⟨zeroRepairStats, some .insufficientSpace, none, false, false⟩
  else if env.lockExists then ⟨zeroRepairStats, some .locked, none, false, false⟩
  else repairRewrite env needsMetadataRegeneration needsLookupCleanup

/-! ## C3: tombstone preservation through repair (code bug) -/

/-- Tombstone entry of the C3 input log. -/
def tombEntryC3 : LookupEntry :=
  { fileSize := 0, inode := 1, modified := 1, name := "a", target := "" }

/-- Live entry of the C3 input log, targeting blob X. -/
def liveEntryC3 : LookupEntry :=
  { fileSize := 3, inode := 2, modified := 2, name := "b", target := "X" }

/-- Archive for the C3 run: consistent metadata and one orphan blob Y, so
the only validation error is the orphan and repair performs the lookup
cleanup. -/
def metaC3 : Metadata :=
  { compressedSize := 0
    djafsVersion := "development"
    newestFileTS := 2
    oldestFileTS := 1
    targetFileCount := 2
    totalFileCount := 2
    uncompressedSize := 3 }

def archiveC3 : GoArchive :=
  { lookups := some ⟨[tombEntryC3, liveEntryC3], true⟩
    metadata := some metaC3
    blobs := ["X", "Y"] }

/-- Repair environment for the C3 run: ample space, no lock. -/
def envC3 : RepairEnv :=
  { archive := archiveC3, archiveSize := 1, availableBytes := 100,
    statfsSucceeds := true, lockExists := false }

/-- C3: repair drops tombstones.  The pre-repair log holds the tombstone
`tombEntryC3`, the only validation error is one orphaned blob, yet the
lookup log repairArchive writes into the repaired archive is empty - the
tombstone (and even the valid live entry) is gone, because cleanLookupTable
builds its result with the value-receiver `Add`, which never reaches the
local `cleaned` table.  The claimed tombstone preservation fails; only the
`removed` counter (missing entries) behaves as described. -/
theorem repairArchive_drops_tombstones :
    archiveC3.lookups = some ⟨[tombEntryC3, liveEntryC3], true⟩ ∧
    tombEntryC3.target = "" ∧
    validateArchive archiveC3 = [VErr.orphanedFile "Y"] ∧
    (repairArchive envC3 (validateArchive archiveC3)).newArchive =
      some ⟨some ⟨[], false⟩, some (GenerateMetadata ⟨[], false⟩), ["X"]⟩ := by
  decide

/-! ## C8: the repair space check (corrected) -/

/-- Archive for the C8 runs: missing metadata and one orphan blob, so
repair has work to do and no unrecoverable error. -/
def archiveC8 : GoArchive :=
  { lookups := some ⟨[], true⟩, metadata := none, blobs := ["x"] }

/-- Low-space environment whose Statfs query fails. -/
def envC8 : RepairEnv :=
  { archive := archiveC8, archiveSize := 1, availableBytes := 0,
    statfsSucceeds := false, lockExists := false }

/-- C8 counterexample: the available bytes (0) are below twice the archive
size, yet repairArchive proceeds, rewrites and swaps the archive, and
returns no error, because the space check is skipped whenever the Statfs
query itself fails (the code only logs a warning and continues).  The claim
as stated - repair always fails with the insufficient-space error and
performs no rewrite whenever available bytes are below twice the size - is
false on this input. -/
theorem repairArchive_proceeds_when_statfs_fails :
    envC8.availableBytes < 2 * envC8.archiveSize ∧
    (repairArchive envC8 (validateArchive archiveC8)).error = none ∧
    (repairArchive envC8 (validateArchive archiveC8)).renamedBackup = true ∧
    (repairArchive envC8 (validateArchive archiveC8)).newArchive.isSome = true := by
  decide

/-- C8 amended: whenever the disk-space query succeeds and reports fewer
than twice the archive size, repairArchive writes no temp archive, renames
nothing and swaps nothing; and when repair would otherwise proceed (some
repairable validation error and no unrecoverable one) it fails with the
insufficient-space error. -/
theorem repairArchive_space_check (env : RepairEnv) (validationErrors : List VErr)
    (hstat : env.statfsSucceeds = true)
    (hlow : env.availableBytes < 2 * env.archiveSize) :
    (repairArchive env validationErrors).wroteTemp = false ∧
    (repairArchive env validationErrors).renamedBackup = false ∧
    (repairArchive env validationErrors).newArchive = none ∧
    (validationErrors.any isUnrecoverableErr = false →
     (validationErrors.any isMetaErr = true ∨ validationErrors.any isCleanupErr = true) →
     (repairArchive env validationErrors).error = some RepairErr.insufficientSpace) := by
  by_cases hu : validationErrors.any isUnrecoverableErr = true
  · have heval : repairArchive env validationErrors =
        ⟨zeroRepairStats, none, none, false, false⟩ := by
      simp only [repairArchive]
      rw [if_pos hu]
    rw [heval]
    refine ⟨rfl, rfl, rfl, ?_⟩
    intro hu2 _
    rw [hu] at hu2
    exact absurd hu2 (by simp)
  · simp only [Bool.not_eq_true] at hu
    by_cases hn : validationErrors.any isMetaErr = false ∧
        validationErrors.any isCleanupErr = false
    · have heval : repairArchive env validationErrors =
          ⟨zeroRepairStats, none, none, false, false⟩ := by
        simp only [repairArchive]
        rw [if_neg (by simp [hu]), if_pos hn]
      rw [heval]
      refine ⟨rfl, rfl, rfl, ?_⟩
      intro _ hrep
      rcases hrep with h | h
      · rw [hn.1] at h
        exact absurd h (by simp)
      · rw [hn.2] at h
        exact absurd h (by simp)
    · have heval : repairArchive env validationErrors =
          ⟨zeroRepairStats, some .insufficientSpace, none, false, false⟩ := by
        simp only [repairArchive]
        rw [if_neg (by simp [hu]), if_neg hn, if_pos ⟨hstat, hlow⟩]
      rw [heval]
      exact ⟨rfl, rfl, rfl, fun _ _ => rfl⟩

/-- Low-space environment whose Statfs query succeeds, used by the space
check witness. -/
def envC8w : RepairEnv :=
  { archive := archiveC8, archiveSize := 1, availableBytes := 1,
    statfsSucceeds := true, lockExists := false }

/-- Closed instance of `repairArchive_space_check` at a concrete low-space
environment with a successful space query. -/
theorem repairArchive_space_check_witness :
    (repairArchive envC8w (validateArchive archiveC8)).newArchive = none ∧
    (repairArchive envC8w (validateArchive archiveC8)).error =
      some RepairErr.insufficientSpace := by
  have h := repairArchive_space_check envC8w (validateArchive archiveC8)
    (by decide) (by decide)
  exact ⟨h.2.2.1, h.2.2.2 (by decide) (by decide)⟩

/-! ## C9: previewRepair versus repairArchive stats (corrected) -/

/-- Ordinary entry targeting blob X. -/
def entryBlobC9 : LookupEntry :=
  { fileSize := 2, inode := 2, modified := 2, name := "b", target := "X" }

/-- Archive whose lookup log is empty (so the in-archive JSON decodes to
the same empty table the model holds), whose metadata entry is missing,
and whose zip container carries two entries with the same orphan blob name
Y (duplicate entry names are legal in a zip container). -/
def archiveC9 : GoArchive :=
  { lookups := some ⟨[], true⟩
    metadata := none
    blobs := ["Y", "Y"] }

/-- Repair environment for the C9 counterexample: ample space, no lock. -/
def envC9 : RepairEnv :=
  { archive := archiveC9, archiveSize := 1, availableBytes := 100,
    statfsSucceeds := true, lockExists := false }

/-- C9 counterexample: validateArchive collects entry names in the
`archiveFiles` map, so the duplicated orphan name Y yields a single
OrphanedFile error and previewRepair predicts one orphan removed; the
actual successful repair's copy loop visits both zip entries named Y,
skips each, and counts two orphans removed, so the two stats records
differ. The lookup log is empty, so every step of this trace is
independent of how the log is decoded. -/
theorem previewRepair_differs_from_repair :
    validateArchive archiveC9 = [VErr.missingMetadata, VErr.orphanedFile "Y"] ∧
    previewRepair (validateArchive archiveC9) = ⟨true, 1, 0⟩ ∧
    (repairArchive envC9 (validateArchive archiveC9)).error = none ∧
    (repairArchive envC9 (validateArchive archiveC9)).newArchive.isSome = true ∧
    (repairArchive envC9 (validateArchive archiveC9)).stats = ⟨true, 2, 0⟩ ∧
    previewRepair (validateArchive archiveC9) ≠
      (repairArchive envC9 (validateArchive archiveC9)).stats := by
  decide

theorem foldl_previewStep (l : List VErr) : ∀ s : RepairStats,
    l.foldl previewStep s =
      ⟨s.metadataRegenerated || l.any isMetaErr,
       s.orphanedFilesRemoved + l.countP isOrphanErr,
       s.missingEntriesFixed + l.countP isMissingTargetErr⟩ := by
  induction l with
  | nil =>
    intro s
    cases s
    simp
  | cons v rest ih =>
    intro s
    rw [List.foldl_cons, ih]
    rcases v with _ | _ | _ | nm | tg | ctx <;>
      simp [previewStep, isMetaErr, isOrphanErr, isMissingTargetErr,
        List.any_cons, List.countP_cons, Bool.or_assoc, RepairStats.mk.injEq] <;>
      omega

theorem previewRepair_eq_counts (l : List VErr) :
    previewRepair l = ⟨l.any isMetaErr, l.countP isOrphanErr, l.countP isMissingTargetErr⟩ := by
  unfold previewRepair zeroRepairStats
  rw [foldl_previewStep]
  simp

theorem isOrphanErr_comp_missingTarget :
    (isOrphanErr ∘ fun e : LookupEntry => VErr.missingTarget e.target) = fun _ => false := by
  funext e; rfl

theorem isOrphanErr_comp_orphanedFile :
    (isOrphanErr ∘ VErr.orphanedFile) = fun _ => true := by
  funext b; rfl

theorem isMissingTargetErr_comp_missingTarget :
    (isMissingTargetErr ∘ fun e : LookupEntry => VErr.missingTarget e.target) =
      fun _ => true := by
  funext e; rfl

theorem isMissingTargetErr_comp_orphanedFile :
    (isMissingTargetErr ∘ VErr.orphanedFile) = fun _ => false := by
  funext b; rfl

theorem countP_const_false {α : Type} (l : List α) :
    List.countP (fun _ => false) l = 0 := by
  induction l with
  | nil => rfl
  | cons x xs ih => simp [List.countP_cons, ih]

theorem countP_const_true {α : Type} (l : List α) :
    List.countP (fun _ => true) l = l.length := by
  induction l with
  | nil => rfl
  | cons x xs ih => simp [List.countP_cons, ih]

theorem validateArchive_orphan_count (lt : LookupTable) (md : Option Metadata)
    (blobs : List String) :
    (validateArchive ⟨some lt, md, blobs⟩).countP isOrphanErr =
      (blobs.dedup.filter fun b => decide (b ∉ referencedTargets lt.entries)).length := by
  rcases md with _ | m <;>
    simp [validateArchive, List.countP_append, List.countP_map,
      isOrphanErr_comp_missingTarget, isOrphanErr_comp_orphanedFile,
      countP_const_false, countP_const_true,
      isOrphanErr, List.countP_cons, apply_ite (List.countP isOrphanErr)]

theorem validateArchive_missing_count (lt : LookupTable) (md : Option Metadata)
    (blobs : List String) :
    (validateArchive ⟨some lt, md, blobs⟩).countP isMissingTargetErr =
      (lt.entries.filter fun e =>
        decide (e.target ≠ "" ∧
          e.target ∉ archiveFileNames ⟨some lt, md, blobs⟩)).length := by
  rcases md with _ | m <;>
    simp [validateArchive, List.countP_append, List.countP_map,
      isMissingTargetErr_comp_missingTarget, isMissingTargetErr_comp_orphanedFile,
      countP_const_false, countP_const_true,
      isMissingTargetErr, List.countP_cons, apply_ite (List.countP isMissingTargetErr)]

theorem cleanup_of_orphan (v : VErr) (h : isOrphanErr v = true) : isCleanupErr v = true := by
  cases v <;> simp_all [isOrphanErr, isCleanupErr]

theorem cleanup_of_missingTarget (v : VErr) (h : isMissingTargetErr v = true) :
    isCleanupErr v = true := by
  cases v <;> simp_all [isMissingTargetErr, isCleanupErr]

theorem mem_referencedTargets (entries : List LookupEntry) (e : LookupEntry)
    (he : e ∈ entries) (ht : e.target ≠ "") : e.target ∈ referencedTargets entries := by
  unfold referencedTargets
  exact List.mem_map_of_mem _ (List.mem_filter.mpr ⟨he, by simp [ht]⟩)

theorem mem_archiveFileNames_iff (lt : LookupTable) (md : Option Metadata)
    (blobs : List String) (t : String)
    (h1 : t ≠ "lookups.djfl") (h2 : t ≠ "metadata.djfm") :
    (t ∈ archiveFileNames ⟨some lt, md, blobs⟩) ↔ t ∈ blobs := by
  rcases md with _ | m <;>
    simp [archiveFileNames, h1, h2]

/-- C9 amended: previewRepair is a pure computation over the validation
errors, and for an archive whose lookup log is present, whose zip entries
carry pairwise distinct blob names, and whose non-tombstone entries never
target the reserved names lookups.djfl or metadata.djfm, whenever the
non-dry-run repairArchive actually rewrites and swaps the archive, its
stats record equals the one previewRepair computes from the same
validation errors. -/
theorem previewRepair_eq_repairArchive_stats (env : RepairEnv) (lt : LookupTable)
    (hl : env.archive.lookups = some lt)
    (hres : ∀ e ∈ lt.entries, e.target ≠ "" →
      e.target ≠ "lookups.djfl" ∧ e.target ≠ "metadata.djfm")
    (hnd : env.archive.blobs.Nodup)
    (hswap : (repairArchive env (validateArchive env.archive)).newArchive.isSome = true) :
    previewRepair (validateArchive env.archive) =
      (repairArchive env (validateArchive env.archive)).stats := by
  obtain ⟨arch, asize, avail, stat, lock⟩ := env
  obtain ⟨lks, md, blobs⟩ := arch
  replace hl : lks = some lt := hl
  replace hnd : blobs.Nodup := hnd
  subst hl
  set errs := validateArchive ⟨some lt, md, blobs⟩ with herrs
  have hu : ¬(errs.any isUnrecoverableErr = true) := by
    intro hu
    rw [show repairArchive ⟨⟨some lt, md, blobs⟩, asize, avail, stat, lock⟩ errs =
        ⟨zeroRepairStats, none, none, false, false⟩ from by
      simp only [repairArchive]
      rw [if_pos hu]] at hswap
    exact absurd hswap (by simp)
  have hn : ¬(errs.any isMetaErr = false ∧ errs.any isCleanupErr = false) := by
    intro hn
    rw [show repairArchive ⟨⟨some lt, md, blobs⟩, asize, avail, stat, lock⟩ errs =
        ⟨zeroRepairStats, none, none, false, false⟩ from by
      simp only [repairArchive]
      rw [if_neg hu, if_pos hn]] at hswap
    exact absurd hswap (by simp)
  have hsp : ¬((⟨⟨some lt, md, blobs⟩, asize, avail, stat, lock⟩ :
      RepairEnv).statfsSucceeds = true ∧
      (⟨⟨some lt, md, blobs⟩, asize, avail, stat, lock⟩ : RepairEnv).availableBytes <
        2 * (⟨⟨some lt, md, blobs⟩, asize, avail, stat, lock⟩ :
          RepairEnv).archiveSize) := by
    intro hsp
    rw [show repairArchive ⟨⟨some lt, md, blobs⟩, asize, avail, stat, lock⟩ errs =
        ⟨zeroRepairStats, some .insufficientSpace, none, false, false⟩ from by
      simp only [repairArchive]
      rw [if_neg hu, if_neg hn, if_pos hsp]] at hswap
    exact absurd hswap (by simp)
  have hlock : ¬((⟨⟨some lt, md, blobs⟩, asize, avail, stat, lock⟩ :
      RepairEnv).lockExists = true) := by
    intro hlock
    rw [show repairArchive ⟨⟨some lt, md, blobs⟩, asize, avail, stat, lock⟩ errs =
        ⟨zeroRepairStats, some .locked, none, false, false⟩ from by
      simp only [repairArchive]
      rw [if_neg hu, if_neg hn, if_neg hsp, if_pos hlock]] at hswap
    exact absurd hswap (by simp)
  have hfin : repairArchive ⟨⟨some lt, md, blobs⟩, asize, avail, stat, lock⟩ errs =
      repairRewrite ⟨⟨some lt, md, blobs⟩, asize, avail, stat, lock⟩
        (errs.any isMetaErr) (errs.any isCleanupErr) := by
    simp only [repairArchive]
    rw [if_neg hu, if_neg hn, if_neg hsp, if_neg hlock]
  rw [previewRepair_eq_counts, hfin]
  by_cases hcln : errs.any isCleanupErr = true
  · rw [hcln]
    have hstats : (repairRewrite ⟨⟨some lt, md, blobs⟩, asize, avail, stat, lock⟩
        (errs.any isMetaErr) true).stats =
        ⟨errs.any isMetaErr,
         (blobs.filter fun b => decide (b ∉ referencedTargets lt.entries)).length,
         (cleanLookupTable lt.entries
           (blobs.filter fun b => decide (b ∈ referencedTargets lt.entries)) []).2⟩ := by
      simp [repairRewrite]
    rw [hstats]
    simp only [RepairStats.mk.injEq]
    refine ⟨trivial, ?_, ?_⟩
    · rw [herrs, validateArchive_orphan_count lt md blobs,
        List.dedup_eq_self.mpr hnd]
    · rw [herrs, validateArchive_missing_count lt md blobs, cleanLookupTable_removed,
        List.countP_eq_length_filter]
      congr 1
      apply List.filter_congr
      intro e he
      by_cases ht : e.target = ""
      · simp [ht]
      · have hmemv : e.target ∈ referencedTargets lt.entries :=
          mem_referencedTargets lt.entries e he ht
        have hiff := mem_archiveFileNames_iff lt md blobs e.target
          (hres e he ht).1 (hres e he ht).2
        have hkept : (e.target ∈ blobs.filter fun b =>
            decide (b ∈ referencedTargets lt.entries)) ↔ e.target ∈ blobs := by
          simp [List.mem_filter, hmemv]
        rw [decide_eq_decide]
        exact and_congr_right fun _ => not_congr (hiff.trans hkept.symm)
  · simp only [Bool.not_eq_true] at hcln
    rw [hcln]
    have hstats : (repairRewrite ⟨⟨some lt, md, blobs⟩, asize, avail, stat, lock⟩
        (errs.any isMetaErr) false).stats = ⟨errs.any isMetaErr, 0, 0⟩ := by
      simp [repairRewrite]
    rw [hstats]
    simp only [RepairStats.mk.injEq]
    have hnone : ∀ v ∈ errs, isCleanupErr v = false := by
      intro v hv
      by_contra hcv
      simp only [Bool.not_eq_false] at hcv
      have : errs.any isCleanupErr = true := List.any_eq_true.mpr ⟨v, hv, hcv⟩
      rw [hcln] at this
      exact absurd this (by simp)
    refine ⟨trivial, ?_, ?_⟩
    · rw [List.countP_eq_zero]
      intro v hv hvp
      have := cleanup_of_orphan v hvp
      rw [hnone v hv] at this
      exact absurd this (by simp)
    · rw [List.countP_eq_zero]
      intro v hv hvp
      have := cleanup_of_missingTarget v hvp
      rw [hnone v hv] at this
      exact absurd this (by simp)

/-- Archive for the C9 amended-claim witness: missing metadata and one
orphan blob, with no reserved-name targets in the log. -/
def archiveC9w : GoArchive :=
  { lookups := some ⟨[entryBlobC9], true⟩
    metadata := none
    blobs := ["X", "Y"] }

/-- Environment for the C9 amended-claim witness. -/
def envC9w : RepairEnv :=
  { archive := archiveC9w, archiveSize := 1, availableBytes := 100,
    statfsSucceeds := true, lockExists := false }

/-- Closed instance of `previewRepair_eq_repairArchive_stats`: with no
reserved-name targets and distinct blob names the preview and the actual
repair agree. -/
theorem previewRepair_eq_repairArchive_stats_witness :
    previewRepair (validateArchive archiveC9w) =
      (repairArchive envC9w (validateArchive archiveC9w)).stats := by
  exact previewRepair_eq_repairArchive_stats envC9w ⟨[entryBlobC9], true⟩ rfl
    (by decide) (by decide) (by decide)

/-! ## C6: the boundary planner (subfile.go lines 10-119) -/

/-- One entry of a directory in the input tree: a regular file or a
subdirectory with its own entries.  `os.ReadDir` order is the list order. -/
inductive FsEntry where
  | file (name : String)
  | dir (name : String) (entries : List FsEntry)

/-- Name of a directory entry, as ReadDir reports it. -/
def entryName : FsEntry → String
  | .file n => n
  | .dir n _ => n

/-- Test for a subdirectory entry (`f.IsDir()`). -/
def isDirEntry : FsEntry → Bool
  | .dir _ _ => true
  | .file _ => false

/-- Test for a regular-file entry (`!f.IsDir()`). -/
def isFileEntry : FsEntry → Bool
  | .file _ => true
  | .dir _ _ => false

/-- Total recursive regular-file count of a directory level. -/
def countFiles : List FsEntry → Nat
  | [] => 0
  | .file _ :: rest => 1 + countFiles rest
  | .dir _ sub :: rest => countFiles sub + countFiles rest

/-- Model of `CountSubfile` (subfile.go 10-47): running count with early
exit as soon as the count exceeds the target; a subdirectory is counted by
a fresh recursive call whose overage short-circuits.  The second component
is the `isOverTarget` result.  The Go `int` target may be negative, so it
is an `Int`.  The `.` and `..` skips never fire for ReadDir results and the
error paths cannot arise on a pure tree. -/
def countSubfileLoop (target : Int) : List FsEntry → Nat → Nat × Bool
  | [], count => (count, decide (target < (count : Int)))
  | .file _ :: rest, count =>
    if target < ((count + 1 : Nat) : Int) then (count + 1, true)
    else countSubfileLoop target rest (count + 1)
  | .dir _ sub :: rest, count =>
    let r := countSubfileLoop target sub 0
    if r.2 then (count + r.1, true)
    else countSubfileLoop target rest (count + r.1)

/-- Model of the `CountSubfile` entry point: the loop started at zero. -/
def CountSubfile (es : List FsEntry) (target : Int) : Nat × Bool :=
  countSubfileLoop target es 0

/-- Planner output record (subfile.go 61-64): one archive root, recursive
or files-only. -/
structure ZipBoundary where
  path : List String
  includeSubdirs : Bool
deriving DecidableEq

mutual
/-- Model of `DetermineZipBoundaries` (subfile.go 66-119) on the entries of
the directory at `path`.  When the recursive file count is not over the
target, the single recursive boundary for this directory is returned (this
covers the empty-directory case); otherwise each subdirectory is processed
recursively and, when the level has direct files, a files-only boundary for
this directory is appended. -/
def DetermineZipBoundaries (path : List String) (es : List FsEntry) (target : Int) :
    List ZipBoundary :=
  let isOver := (CountSubfile es target).2
  let hasFiles := es.any isFileEntry
  let hasSubdirs := es.any isDirEntry
  if isOver = false then [⟨path, true⟩]
  else
    (if hasSubdirs then dzbChildren path target es else []) ++
    (if hasFiles then [⟨path, false⟩] else [])
termination_by 2 * sizeOf es + 1
decreasing_by
  all_goals simp_wf

/-- Loop over the subdirectories of the current level (subfile.go
101-111). -/
def dzbChildren (path : List String) (target : Int) : List FsEntry → List ZipBoundary
  | [] => []
  | .file _ :: rest => dzbChildren path target rest
  | .dir n sub :: rest =>
    DetermineZipBoundaries (path ++ [n]) sub target ++ dzbChildren path target rest
termination_by es => 2 * sizeOf es
decreasing_by
  all_goals simp_wf
  all_goals omega
end

/-- Virtual paths of all regular files under a directory level, prefixed by
the directory path: the set a recursive boundary covers. -/
def filesUnder (path : List String) : List FsEntry → List (List String)
  | [] => []
  | .file n :: rest => (path ++ [n]) :: filesUnder path rest
  | .dir n sub :: rest => filesUnder (path ++ [n]) sub ++ filesUnder path rest

/-- Virtual paths of the direct regular files of a level: the set a
files-only boundary covers. -/
def directFiles (path : List String) (es : List FsEntry) : List (List String) :=
  es.filterMap fun e =>
    match e with
    | .file n => some (path ++ [n])
    | .dir _ _ => none

/-- Virtual paths of the files lying under the subdirectories of a level. -/
def dirFilesUnder (path : List String) : List FsEntry → List (List String)
  | [] => []
  | .file _ :: rest => dirFilesUnder path rest
  | .dir n sub :: rest => filesUnder (path ++ [n]) sub ++ dirFilesUnder path rest

/-- Directory lookup along a relative path, resolving each component to the
first entry of that name. -/
def lookupDir (es : List FsEntry) : List String → Option (List FsEntry)
  | [] => some es
  | n :: rest =>
    match es.find? fun e => entryName e == n with
    | some (.dir _ sub) => lookupDir sub rest
    | _ => none

/-- Modelled from the spec: the virtual paths covered by one boundary in a
given tree - all files under the boundary directory for a recursive
boundary, its direct files for a files-only one. -/
def coveredFiles (root : List FsEntry) (b : ZipBoundary) : List (List String) :=
  match lookupDir root b.path with
  | none => []
  | some es => if b.includeSubdirs then filesUnder b.path es else directFiles b.path es

mutual
/-- Well-formedness of a directory level: sibling names are distinct, and
every subdirectory is well-formed - what a real file system guarantees. -/
def wfForest (es : List FsEntry) : Bool :=
  decide (es.map entryName).Nodup && wfSubs es
termination_by 2 * sizeOf es + 1
decreasing_by
  all_goals simp_wf

/-- Well-formedness of every subdirectory of a level. -/
def wfSubs : List FsEntry → Bool
  | [] => true
  | .file _ :: rest => wfSubs rest
  | .dir _ sub :: rest => wfForest sub && wfSubs rest
termination_by es => 2 * sizeOf es
decreasing_by
  all_goals simp_wf
  all_goals omega
end

theorem forest_strong_induction (P : List FsEntry → Prop)
    (h : ∀ es, (∀ es2, sizeOf es2 < sizeOf es → P es2) → P es) : ∀ es, P es := by
  have haux : ∀ n : Nat, ∀ es, sizeOf es ≤ n → P es := by
    intro n
    induction n with
    | zero =>
      intro es hle
      exact h es fun es2 hlt => absurd (lt_of_lt_of_le hlt hle) (by omega)
    | succ n ih =>
      intro es hle
      refine h es fun es2 hlt => ih es2 ?_
      omega
  exact fun es => haux (sizeOf es) es (le_refl _)

theorem sizeOf_tail_lt (x : FsEntry) (rest : List FsEntry) :
    sizeOf rest < sizeOf (x :: rest) := by
  simp only [List.cons.sizeOf_spec]
  have : 0 < sizeOf x := by
    cases x <;> simp_arith
  omega

theorem sizeOf_dir_sub_lt (n : String) (sub rest : List FsEntry) :
    sizeOf sub < sizeOf (FsEntry.dir n sub :: rest) := by
  simp only [List.cons.sizeOf_spec, FsEntry.dir.sizeOf_spec]
  omega

theorem sizeOf_dir_mem (es : List FsEntry) (m : String) (sub : List FsEntry)
    (h : FsEntry.dir m sub ∈ es) : sizeOf sub < sizeOf es := by
  induction es with
  | nil => cases h
  | cons x rest ih =>
    rcases List.mem_cons.mp h with h | h
    · subst h
      exact sizeOf_dir_sub_lt m sub rest
    · have h1 := ih h
      have h2 := sizeOf_tail_lt x rest
      omega

theorem countSubfileLoop_spec (target : Int) : ∀ es : List FsEntry, ∀ c : Nat,
    ((countSubfileLoop target es c).2 = true ↔ target < (c : Int) + countFiles es) ∧
    ((countSubfileLoop target es c).2 = false →
      (countSubfileLoop target es c).1 = c + countFiles es) := by
  intro es
  induction es using forest_strong_induction with
  | h es ih =>
    match es with
    | [] =>
      intro c
      simp [countSubfileLoop, countFiles]
    | .file n :: rest =>
      intro c
      obtain ⟨ihr1, ihr2⟩ := ih rest (sizeOf_tail_lt _ _) (c + 1)
      by_cases hov : target < ((c + 1 : Nat) : Int)
      · simp only [countSubfileLoop, if_pos hov, countFiles]
        refine ⟨⟨fun _ => ?_, fun _ => trivial⟩, fun hc => by simp at hc⟩
        push_cast at hov ⊢
        omega
      · simp only [countSubfileLoop, if_neg hov, countFiles]
        push_cast at hov
        constructor
        · rw [ihr1]
          push_cast
          constructor <;> (intro h; omega)
        · intro hf
          rw [ihr2 hf]
          omega
    | .dir n sub :: rest =>
      intro c
      obtain ⟨ihs1, ihs2⟩ := ih sub (sizeOf_dir_sub_lt _ _ _) 0
      by_cases ho : (countSubfileLoop target sub 0).2 = true
      · have hso : target < (countFiles sub : Int) := by
          have := ihs1.mp ho
          simpa using this
        simp only [countSubfileLoop, if_pos ho, countFiles]
        refine ⟨⟨fun _ => ?_, fun _ => trivial⟩, fun hc => by simp at hc⟩
        push_cast
        omega
      · simp only [Bool.not_eq_true] at ho
        have hr1 : (countSubfileLoop target sub 0).1 = countFiles sub := by
          simpa using ihs2 ho
        obtain ⟨ihr1, ihr2⟩ := ih rest (sizeOf_tail_lt _ _) (c + countFiles sub)
        simp only [countSubfileLoop, ho, if_neg (by simp : ¬(false = true)), hr1, countFiles]
        constructor
        · rw [ihr1]
          push_cast
          constructor <;> (intro h; omega)
        · intro hf
          rw [ihr2 hf]
          omega

theorem CountSubfile_over_iff (es : List FsEntry) (target : Int) :
    (CountSubfile es target).2 = true ↔ target < (countFiles es : Int) := by
  have h := (countSubfileLoop_spec target es 0).1
  simpa [CountSubfile] using h

/-- Prefixing a boundary path with one directory component. -/
def prependBoundary (x : String) (b : ZipBoundary) : ZipBoundary :=
  ⟨x :: b.path, b.includeSubdirs⟩

theorem dzb_shift (target : Int) : ∀ es : List FsEntry,
    (∀ p x, dzbChildren (x :: p) target es =
      (dzbChildren p target es).map (prependBoundary x)) ∧
    (∀ p x, DetermineZipBoundaries (x :: p) es target =
      (DetermineZipBoundaries p es target).map (prependBoundary x)) := by
  intro es
  induction es using forest_strong_induction with
  | h es ih =>
    have hC : ∀ p x, dzbChildren (x :: p) target es =
        (dzbChildren p target es).map (prependBoundary x) := by
      intro p x
      cases es with
      | nil => simp [dzbChildren]
      | cons head rest =>
        cases head with
        | file n =>
          simp only [dzbChildren]
          exact (ih rest (sizeOf_tail_lt _ _)).1 p x
        | dir n sub =>
          simp only [dzbChildren]
          rw [show (x :: p) ++ [n] = x :: (p ++ [n]) from rfl,
            (ih sub (sizeOf_dir_sub_lt _ _ _)).2 (p ++ [n]) x,
            (ih rest (sizeOf_tail_lt _ _)).1 p x, List.map_append]
    refine ⟨hC, ?_⟩
    intro p x
    simp only [DetermineZipBoundaries]
    by_cases hov : (CountSubfile es target).2 = false
    · rw [if_pos hov, if_pos hov]
      rfl
    · rw [if_neg hov, if_neg hov, List.map_append]
      congr 1
      · by_cases hsd : es.any isDirEntry = true
        · rw [if_pos hsd, if_pos hsd, hC p x]
        · rw [if_neg hsd, if_neg hsd]
          rfl
      · by_cases hf : es.any isFileEntry = true
        · rw [if_pos hf, if_pos hf]
          rfl
        · rw [if_neg hf, if_neg hf]
          rfl

theorem filesUnder_cons : ∀ es : List FsEntry, ∀ p : List String, ∀ x : String,
    filesUnder (x :: p) es = (filesUnder p es).map (fun f => x :: f) := by
  intro es
  induction es using forest_strong_induction with
  | h es ih =>
    intro p x
    cases es with
    | nil => simp [filesUnder]
    | cons head rest =>
      cases head with
      | file n =>
        simp only [filesUnder]
        rw [ih rest (sizeOf_tail_lt _ _) p x]
        rfl
      | dir n sub =>
        simp only [filesUnder]
        rw [show (x :: p) ++ [n] = x :: (p ++ [n]) from rfl,
          ih sub (sizeOf_dir_sub_lt _ _ _) (p ++ [n]) x,
          ih rest (sizeOf_tail_lt _ _) p x, List.map_append]

theorem directFiles_cons (es : List FsEntry) (p : List String) (x : String) :
    directFiles (x :: p) es = (directFiles p es).map (fun f => x :: f) := by
  induction es with
  | nil => rfl
  | cons head rest ih =>
    cases head with
    | file n =>
      simp only [directFiles, List.filterMap_cons] at ih ⊢
      rw [ih]
      rfl
    | dir n sub =>
      simp only [directFiles, List.filterMap_cons] at ih ⊢
      rw [ih]

theorem flatMap_append_hom {α β : Type} (f : α → List β) (l1 l2 : List α) :
    (l1 ++ l2).flatMap f = l1.flatMap f ++ l2.flatMap f := by
  induction l1 with
  | nil => rfl
  | cons x xs ih => simp [ih]

theorem flatMap_map_eq {α β γ : Type} (g : α → β) (f : β → List γ) : ∀ l : List α,
    (l.map g).flatMap f = l.flatMap fun a => f (g a) := by
  intro l
  induction l with
  | nil => rfl
  | cons x xs ih => simp [ih]

theorem flatMap_congr_fun {α β : Type} (f g : α → List β) : ∀ l : List α,
    (∀ a ∈ l, f a = g a) → l.flatMap f = l.flatMap g := by
  intro l
  induction l with
  | nil => intro _; rfl
  | cons x xs ih =>
    intro h
    simp only [List.flatMap_cons]
    rw [h x (List.mem_cons_self _ _), ih fun a ha => h a (List.mem_cons_of_mem _ ha)]

theorem map_flatMap_eq {α β γ : Type} (h : β → γ) (f : α → List β) : ∀ l : List α,
    (l.flatMap f).map h = l.flatMap fun a => (f a).map h := by
  intro l
  induction l with
  | nil => rfl
  | cons x xs ih => simp [ih]

theorem find?_dir_of_nodup : ∀ es : List FsEntry, (es.map entryName).Nodup →
    ∀ m : String, ∀ sub : List FsEntry, FsEntry.dir m sub ∈ es →
    es.find? (fun e => entryName e == m) = some (.dir m sub) := by
  intro es
  induction es with
  | nil =>
    intro _ m sub h
    cases h
  | cons x rest ih =>
    intro hnd m sub hmem
    rw [List.map_cons, List.nodup_cons] at hnd
    rcases List.mem_cons.mp hmem with h | h
    · subst h
      rw [List.find?_cons_of_pos]
      simp [entryName]
    · have hx : (entryName x == m) = false := by
        rw [beq_eq_false_iff_ne]
        intro hxe
        apply hnd.1
        rw [hxe]
        have : entryName (FsEntry.dir m sub) ∈ rest.map entryName :=
          List.mem_map_of_mem entryName h
        simpa [entryName] using this
      rw [List.find?_cons_of_neg _ (by simp [hx])]
      exact ih hnd.2 m sub h

theorem coveredFiles_shift (root sub : List FsEntry) (m : String)
    (hfind : root.find? (fun e => entryName e == m) = some (.dir m sub))
    (b : ZipBoundary) :
    coveredFiles root (prependBoundary m b) = (coveredFiles sub b).map (fun f => m :: f) := by
  obtain ⟨q, inc⟩ := b
  have hlk : lookupDir root (m :: q) = lookupDir sub q := by
    simp only [lookupDir, hfind]
  simp only [prependBoundary, coveredFiles, hlk]
  rcases h : lookupDir sub q with _ | es2
  · rfl
  · cases inc
    · simp only [Bool.false_eq_true, if_false]
      exact directFiles_cons es2 q m
    · simp only [if_true]
      exact filesUnder_cons es2 q m

theorem wfForest_nodup (es : List FsEntry) (h : wfForest es = true) :
    (es.map entryName).Nodup := by
  rw [wfForest, Bool.and_eq_true] at h
  exact of_decide_eq_true h.1

theorem wfForest_wfSubs (es : List FsEntry) (h : wfForest es = true) :
    wfSubs es = true := by
  rw [wfForest, Bool.and_eq_true] at h
  exact h.2

theorem wfSubs_dir : ∀ es : List FsEntry, wfSubs es = true →
    ∀ m : String, ∀ sub : List FsEntry, FsEntry.dir m sub ∈ es → wfForest sub = true := by
  intro es
  induction es with
  | nil =>
    intro _ m sub h
    cases h
  | cons x rest ih =>
    intro hw m sub hmem
    rcases List.mem_cons.mp hmem with h | h
    · subst h
      rw [wfSubs, Bool.and_eq_true] at hw
      exact hw.1
    · cases x with
      | file n =>
        rw [wfSubs] at hw
        exact ih hw m sub h
      | dir n2 sub2 =>
        rw [wfSubs, Bool.and_eq_true] at hw
        exact ih hw.2 m sub h

theorem wfForest_dir (es : List FsEntry) (h : wfForest es = true) (m : String)
    (sub : List FsEntry) (hm : FsEntry.dir m sub ∈ es) : wfForest sub = true :=
  wfSubs_dir es (wfForest_wfSubs es h) m sub hm

theorem dzbChildren_eq_nil_of_no_dirs (p : List String) (target : Int) :
    ∀ es : List FsEntry, es.any isDirEntry = false → dzbChildren p target es = [] := by
  intro es
  induction es with
  | nil =>
    intro _
    simp [dzbChildren]
  | cons head rest ih =>
    intro h
    cases head with
    | file n =>
      simp only [List.any_cons, Bool.or_eq_false_iff] at h
      simp only [dzbChildren]
      exact ih h.2
    | dir n sub =>
      simp [List.any_cons, isDirEntry] at h

theorem directFiles_eq_nil_of_no_files (p : List String) :
    ∀ es : List FsEntry, es.any isFileEntry = false → directFiles p es = [] := by
  intro es
  induction es with
  | nil =>
    intro _
    rfl
  | cons head rest ih =>
    intro h
    cases head with
    | file n => simp [List.any_cons, isFileEntry] at h
    | dir n sub =>
      simp only [List.any_cons, Bool.or_eq_false_iff] at h
      simp only [directFiles, List.filterMap_cons]
      exact ih h.2

theorem dirFilesUnder_eq_nil_of_no_dirs (p : List String) :
    ∀ es : List FsEntry, es.any isDirEntry = false → dirFilesUnder p es = [] := by
  intro es
  induction es with
  | nil =>
    intro _
    simp [dirFilesUnder]
  | cons head rest ih =>
    intro h
    cases head with
    | file n =>
      simp only [List.any_cons, Bool.or_eq_false_iff] at h
      simp only [dirFilesUnder]
      exact ih h.2
    | dir n sub =>
      simp [List.any_cons, isDirEntry] at h

theorem filesUnder_perm_decomp (p : List String) (es : List FsEntry) :
    (filesUnder p es).Perm (directFiles p es ++ dirFilesUnder p es) := by
  induction es with
  | nil => simp [filesUnder, directFiles, dirFilesUnder]
  | cons head rest ih =>
    cases head with
    | file n =>
      simp only [filesUnder, directFiles, List.filterMap_cons, dirFilesUnder]
      exact ih.cons _
    | dir n sub =>
      simp only [filesUnder, directFiles, List.filterMap_cons, dirFilesUnder]
      have h1 : (filesUnder (p ++ [n]) sub ++ filesUnder p rest).Perm
          (filesUnder (p ++ [n]) sub ++ (directFiles p rest ++ dirFilesUnder p rest)) :=
        ih.append_left _
      have h2 : (filesUnder (p ++ [n]) sub ++
          (directFiles p rest ++ dirFilesUnder p rest)).Perm
          (directFiles p rest ++ (filesUnder (p ++ [n]) sub ++ dirFilesUnder p rest)) := by
        rw [← List.append_assoc, ← List.append_assoc]
        exact List.perm_append_comm.append_right _
      exact h1.trans h2

theorem dzb_cover_perm (target : Int) : ∀ es : List FsEntry, wfForest es = true →
    ((DetermineZipBoundaries [] es target).flatMap (coveredFiles es)).Perm
      (filesUnder [] es) := by
  intro es
  induction es using forest_strong_induction with
  | h es ih =>
    intro hwf
    have hnd : (es.map entryName).Nodup := wfForest_nodup es hwf
    have hchild : ∀ es2 : List FsEntry,
        (∀ m sub, FsEntry.dir m sub ∈ es2 → FsEntry.dir m sub ∈ es) →
        ((dzbChildren [] target es2).flatMap (coveredFiles es)).Perm
          (dirFilesUnder [] es2) := by
      intro es2
      induction es2 with
      | nil =>
        intro _
        simp [dzbChildren, dirFilesUnder]
      | cons head rest ihr =>
        intro hsubof
        cases head with
        | file n =>
          simp only [dzbChildren, dirFilesUnder]
          exact ihr fun m sub hm => hsubof m sub (List.mem_cons_of_mem _ hm)
        | dir m sub =>
          have hmem : FsEntry.dir m sub ∈ es := hsubof m sub (List.mem_cons_self _ _)
          have hfind := find?_dir_of_nodup es hnd m sub hmem
          have hwfsub : wfForest sub = true := wfForest_dir es hwf m sub hmem
          have ihsub := ih sub (sizeOf_dir_mem es m sub hmem) hwfsub
          simp only [dzbChildren, dirFilesUnder]
          rw [flatMap_append_hom]
          refine List.Perm.append ?_
            (ihr fun m2 sub2 hm2 => hsubof m2 sub2 (List.mem_cons_of_mem _ hm2))
          rw [show ([] : List String) ++ [m] = m :: ([] : List String) from rfl,
            (dzb_shift target sub).2 [] m, flatMap_map_eq,
            flatMap_congr_fun _ _ _ (fun b _ => coveredFiles_shift es sub m hfind b),
            ← map_flatMap_eq, filesUnder_cons sub [] m]
          exact ihsub.map _
    by_cases hov : (CountSubfile es target).2 = false
    · rw [show DetermineZipBoundaries [] es target = [⟨[], true⟩] from by
        simp only [DetermineZipBoundaries]
        rw [if_pos hov]]
      simp only [List.flatMap_cons, List.flatMap_nil, List.append_nil]
      rw [show coveredFiles es ⟨[], true⟩ = filesUnder [] es from by
        simp [coveredFiles, lookupDir]]
    · rw [show DetermineZipBoundaries [] es target =
          (if es.any isDirEntry then dzbChildren [] target es else []) ++
          (if es.any isFileEntry then [⟨[], false⟩] else []) from by
        simp only [DetermineZipBoundaries]
        rw [if_neg hov]]
      rw [flatMap_append_hom]
      have hfirst : ((if es.any isDirEntry then dzbChildren [] target es
          else []).flatMap (coveredFiles es)).Perm (dirFilesUnder [] es) := by
        by_cases hsd : es.any isDirEntry = true
        · rw [if_pos hsd]
          exact hchild es fun _ _ h => h
        · simp only [Bool.not_eq_true] at hsd
          rw [if_neg (by simp [hsd]), dirFilesUnder_eq_nil_of_no_dirs [] es hsd]
          simp
      have hsecond : ((if es.any isFileEntry then [(⟨[], false⟩ : ZipBoundary)]
          else []).flatMap (coveredFiles es)) = directFiles [] es := by
        by_cases hf : es.any isFileEntry = true
        · rw [if_pos hf]
          simp only [List.flatMap_cons, List.flatMap_nil, List.append_nil]
          simp [coveredFiles, lookupDir]
        · simp only [Bool.not_eq_true] at hf
          rw [if_neg (by simp [hf]), directFiles_eq_nil_of_no_files [] es hf]
          simp
      rw [hsecond]
      exact (hfirst.append_right _).trans
        (List.perm_append_comm.trans (filesUnder_perm_decomp [] es).symm)

/-- Names of the direct regular files of a level. -/
def fileNamesOf (es : List FsEntry) : List String :=
  es.filterMap fun e =>
    match e with
    | .file n => some n
    | .dir _ _ => none

/-- Names of the subdirectories of a level. -/
def dirNamesOf (es : List FsEntry) : List String :=
  es.filterMap fun e =>
    match e with
    | .file _ => none
    | .dir n _ => some n

theorem directFiles_eq_map_fileNames (p : List String) (es : List FsEntry) :
    directFiles p es = (fileNamesOf es).map fun n => p ++ [n] := by
  induction es with
  | nil => rfl
  | cons head rest ih =>
    cases head with
    | file n => simp [directFiles, fileNamesOf, List.filterMap_cons] at ih ⊢; exact ih
    | dir n sub => simp [directFiles, fileNamesOf, List.filterMap_cons] at ih ⊢; exact ih

theorem fileNamesOf_sublist (es : List FsEntry) :
    (fileNamesOf es).Sublist (es.map entryName) := by
  induction es with
  | nil => simp [fileNamesOf]
  | cons head rest ih =>
    cases head with
    | file n =>
      simp only [fileNamesOf, List.filterMap_cons, List.map_cons, entryName]
      exact ih.cons₂ n
    | dir n sub =>
      simp only [fileNamesOf, List.filterMap_cons, List.map_cons, entryName]
      exact ih.cons n

theorem dirNamesOf_sublist (es : List FsEntry) :
    (dirNamesOf es).Sublist (es.map entryName) := by
  induction es with
  | nil => simp [dirNamesOf]
  | cons head rest ih =>
    cases head with
    | file n =>
      simp only [dirNamesOf, List.filterMap_cons, List.map_cons, entryName]
      exact ih.cons n
    | dir n sub =>
      simp only [dirNamesOf, List.filterMap_cons, List.map_cons, entryName]
      exact ih.cons₂ n

theorem mem_dirNamesOf (es : List FsEntry) (m : String) (sub : List FsEntry)
    (h : FsEntry.dir m sub ∈ es) : m ∈ dirNamesOf es := by
  unfold dirNamesOf
  exact List.mem_filterMap.mpr ⟨FsEntry.dir m sub, h, rfl⟩

theorem mem_filesUnder_shape : ∀ es : List FsEntry, ∀ p : List String,
    ∀ y ∈ filesUnder p es, ∃ rel, y = p ++ rel ∧ rel ≠ [] := by
  intro es
  induction es using forest_strong_induction with
  | h es ih =>
    intro p y hy
    cases es with
    | nil => simp [filesUnder] at hy
    | cons head rest =>
      cases head with
      | file n =>
        simp only [filesUnder, List.mem_cons] at hy
        rcases hy with hy | hy
        · exact ⟨[n], hy, by simp⟩
        · exact ih rest (sizeOf_tail_lt _ _) p y hy
      | dir m sub =>
        simp only [filesUnder, List.mem_append] at hy
        rcases hy with hy | hy
        · obtain ⟨rel, hrel, hne⟩ := ih sub (sizeOf_dir_sub_lt _ _ _) (p ++ [m]) y hy
          exact ⟨m :: rel, by simp [hrel], by simp⟩
        · exact ih rest (sizeOf_tail_lt _ _) p y hy

theorem mem_dirFilesUnder_root : ∀ es : List FsEntry,
    ∀ y ∈ dirFilesUnder [] es, ∃ m sub rel, FsEntry.dir m sub ∈ es ∧
      y = m :: rel ∧ rel ≠ [] := by
  intro es
  induction es with
  | nil =>
    intro y hy
    simp [dirFilesUnder] at hy
  | cons head rest ih =>
    intro y hy
    cases head with
    | file n =>
      simp only [dirFilesUnder] at hy
      obtain ⟨m, sub, rel, hmem, hrest⟩ := ih y hy
      exact ⟨m, sub, rel, List.mem_cons_of_mem _ hmem, hrest⟩
    | dir m sub =>
      simp only [dirFilesUnder, List.mem_append] at hy
      rcases hy with hy | hy
      · obtain ⟨rel, hrel, hne⟩ := mem_filesUnder_shape sub ([] ++ [m]) y hy
        exact ⟨m, sub, rel, List.mem_cons_self _ _, by simpa using hrel, hne⟩
      · obtain ⟨m2, sub2, rel2, hmem, hrest⟩ := ih y hy
        exact ⟨m2, sub2, rel2, List.mem_cons_of_mem _ hmem, hrest⟩

theorem mem_directFiles_root (es : List FsEntry) (y : List String)
    (hy : y ∈ directFiles [] es) : ∃ n, y = [n] := by
  rw [directFiles_eq_map_fileNames] at hy
  obtain ⟨n, _, hn⟩ := List.mem_map.mp hy
  exact ⟨n, hn.symm⟩

theorem cons_path_injective (m : String) :
    Function.Injective fun f : List String => m :: f := by
  intro a b h
  simpa using h

theorem filesUnder_nodup : ∀ es : List FsEntry, wfForest es = true →
    (filesUnder [] es).Nodup := by
  intro es
  induction es using forest_strong_induction with
  | h es ih =>
    intro hwf
    have hnd : (es.map entryName).Nodup := wfForest_nodup es hwf
    rw [(filesUnder_perm_decomp [] es).nodup_iff]
    rw [List.nodup_append]
    refine ⟨?_, ?_, ?_⟩
    · rw [directFiles_eq_map_fileNames]
      refine (hnd.sublist (fileNamesOf_sublist es)).map ?_
      intro a b hab
      simpa using hab
    · have haux : ∀ es2 : List FsEntry,
          (∀ m sub, FsEntry.dir m sub ∈ es2 → FsEntry.dir m sub ∈ es) →
          (dirNamesOf es2).Nodup → (dirFilesUnder [] es2).Nodup := by
        intro es2
        induction es2 with
        | nil =>
          intro _ _
          simp [dirFilesUnder]
        | cons head rest ihr =>
          intro hsubof hnames
          cases head with
          | file n =>
            simp only [dirFilesUnder]
            refine ihr (fun m sub hm => hsubof m sub (List.mem_cons_of_mem _ hm)) ?_
            simpa [dirNamesOf, List.filterMap_cons] using hnames
          | dir m sub =>
            simp only [dirFilesUnder]
            simp only [dirNamesOf, List.filterMap_cons, List.nodup_cons] at hnames
            rw [List.nodup_append]
            have hmem : FsEntry.dir m sub ∈ es := hsubof m sub (List.mem_cons_self _ _)
            refine ⟨?_, ?_, ?_⟩
            · rw [show ([] : List String) ++ [m] = m :: ([] : List String) from rfl,
                filesUnder_cons sub [] m]
              refine (ih sub (sizeOf_dir_mem es m sub hmem)
                (wfForest_dir es hwf m sub hmem)).map (cons_path_injective m)
            · exact ihr (fun m2 sub2 hm2 => hsubof m2 sub2 (List.mem_cons_of_mem _ hm2))
                hnames.2
            · intro y hy1 hy2
              obtain ⟨rel, hrel, _⟩ := mem_filesUnder_shape sub ([] ++ [m]) y hy1
              obtain ⟨m2, sub2, rel2, hmem2, hy2e, _⟩ := mem_dirFilesUnder_root rest y hy2
              have hm2names : m2 ∈ dirNamesOf rest := mem_dirNamesOf rest m2 sub2 hmem2
              have : m = m2 := by
                have := hrel
                simp only [List.nil_append] at this
                rw [this] at hy2e
                exact (List.cons.injEq _ _ _ _).mp hy2e |>.1
              rw [this] at hnames
              exact hnames.1 hm2names
      exact haux es (fun _ _ h => h) (hnd.sublist (dirNamesOf_sublist es))
    · intro y hy1 hy2
      obtain ⟨n, hn⟩ := mem_directFiles_root es y hy1
      obtain ⟨m, sub, rel, _, hye, hne⟩ := mem_dirFilesUnder_root es y hy2
      rw [hn] at hye
      have : rel = [] := by
        have := (List.cons.injEq _ _ _ _).mp hye |>.2
        exact this.symm
      exact hne this

/-- C6: on a well-formed input tree (distinct sibling names, as a real file
system guarantees) the boundaries returned by DetermineZipBoundaries
partition the regular files: the concatenation of the covered file sets of
all emitted boundaries is a permutation of the tree's regular-file paths
and contains no duplicate - every file is reachable from exactly one
boundary - and a directory whose total recursive file count is at most the
target yields the single recursive boundary for itself. -/
theorem DetermineZipBoundaries_partition (es : List FsEntry) (target : Int)
    (hwf : wfForest es = true) :
    ((DetermineZipBoundaries [] es target).flatMap (coveredFiles es)).Perm
      (filesUnder [] es) ∧
    ((DetermineZipBoundaries [] es target).flatMap (coveredFiles es)).Nodup ∧
    ((countFiles es : Int) ≤ target →
      DetermineZipBoundaries [] es target = [⟨[], true⟩]) := by
  have hperm := dzb_cover_perm target es hwf
  refine ⟨hperm, hperm.nodup_iff.mpr (filesUnder_nodup es hwf), ?_⟩
  intro hc
  have hov : (CountSubfile es target).2 = false := by
    by_contra hne
    simp only [Bool.not_eq_false] at hne
    have := (CountSubfile_over_iff es target).mp hne
    omega
  simp only [DetermineZipBoundaries]
  rw [if_pos hov]

/-- Input tree of the planner scenario in the spec: three root files, a
subdirectory with ten files, and one with three. -/
def demoTree : List FsEntry :=
  [.file "f1", .file "f2", .file "f3",
   .dir "sub1" [.file "g1", .file "g2", .file "g3", .file "g4", .file "g5",
     .file "g6", .file "g7", .file "g8", .file "g9", .file "g10"],
   .dir "sub2" [.file "h1", .file "h2", .file "h3"]]

/-- Small tree below the target count. -/
def demoSmall : List FsEntry := [.file "a", .dir "d" [.file "b"]]

/-- Closed instance of `DetermineZipBoundaries_partition` at the scenario
tree with target 5 and at a small under-target tree. -/
theorem DetermineZipBoundaries_partition_witness :
    ((DetermineZipBoundaries [] demoTree 5).flatMap (coveredFiles demoTree)).Perm
      (filesUnder [] demoTree) ∧
    DetermineZipBoundaries [] demoSmall 5 = [⟨[], true⟩] := by
  constructor
  · exact (DetermineZipBoundaries_partition demoTree 5
      (by simp [demoTree, wfForest, wfSubs, entryName])).1
  · refine (DetermineZipBoundaries_partition demoSmall 5
      (by simp [demoSmall, wfForest, wfSubs, entryName])).2.2 ?_
    simp [demoSmall, countFiles]

/-! ## C7: CopyToWorkDir deduplication (repack.go lines 22-69) -/

/-- A node of the source file system: a regular file with contents, or a
directory. -/
inductive GoFile where
  | file (bytes : List Nat)
  | directory
deriving DecidableEq

/-- Lookup of a path in the source file system, backing os.Stat and
os.Open in the model. -/
def sourceLookup (sfs : List (String × GoFile)) (p : String) : Option GoFile :=
  (sfs.find? fun kv => kv.1 == p).map fun kv => kv.2

/-- Model of `HashPathFromHash` (hasher.go 306-317): bucket-subbucket-hash
with the bucket from the colorhash of the hex hash modulo 1000 and the
subbucket fixed at zero.  The external colorhash function is a parameter;
only its determinism matters to the claims. -/
def HashPathFromHash (colorHash : String → Nat) (hash : String) : String :=
  toString (colorHash hash % 1000) ++ "-00000-" ++ hash

/-- Errors CopyToWorkDir can return in the model. -/
inductive CopyErr where
  | notExist
  | expectedFile
deriving DecidableEq

/-- Model of `CopyToWorkDir` (repack.go 22-69).  The work area is an
association list from work paths to blob bytes.  Stat and the
directory check come first; `MkdirAll` has no effect on the blob map; if
the destination path already exists the existing path is returned and
nothing is written (deduplication), otherwise the source bytes are copied
to the destination. -/
def CopyToWorkDir (colorHash : String → Nat) (sfs : List (String × GoFile))
    (work : List (String × List Nat)) (path workDirPath hash : String) :
    List (String × List Nat) × Except CopyErr String :=
  match sourceLookup sfs path with
  | none => (work, .error .notExist)
  | some .directory => (work, .error .expectedFile)
  | some (.file bytes) =>
    let workspacePath := workDirPath ++ "/" ++ HashPathFromHash colorHash hash
    if (work.find? fun kv => kv.1 == workspacePath).isSome then
      (work, .ok workspacePath)
    else
      (work ++ [(workspacePath, bytes)], .ok workspacePath)

/-- C7: CopyToWorkDir is idempotent per content hash.  When the destination
computed from the hash already exists, the call returns that existing path
and leaves the work area unchanged; ingesting two source files with the
same content hash (identical bytes) under distinct paths leaves exactly the
one blob at the destination: the second call returns the existing path and
changes nothing, and the first call added at most that single blob. -/
theorem CopyToWorkDir_dedup (colorHash : String → Nat)
    (sfs : List (String × GoFile)) (work : List (String × List Nat))
    (p1 p2 workDirPath hash : String) (b1 b2 : List Nat)
    (h1 : sourceLookup sfs p1 = some (.file b1))
    (h2 : sourceLookup sfs p2 = some (.file b2)) :
    (((work.find? fun kv =>
        kv.1 == workDirPath ++ "/" ++ HashPathFromHash colorHash hash).isSome = true) →
      CopyToWorkDir colorHash sfs work p1 workDirPath hash =
        (work, .ok (workDirPath ++ "/" ++ HashPathFromHash colorHash hash))) ∧
    (CopyToWorkDir colorHash sfs
        (CopyToWorkDir colorHash sfs work p1 workDirPath hash).1 p2 workDirPath hash =
      ((CopyToWorkDir colorHash sfs work p1 workDirPath hash).1,
        .ok (workDirPath ++ "/" ++ HashPathFromHash colorHash hash))) ∧
    ((CopyToWorkDir colorHash sfs work p1 workDirPath hash).1 = work ∨
      (CopyToWorkDir colorHash sfs work p1 workDirPath hash).1 =
        work ++ [(workDirPath ++ "/" ++ HashPathFromHash colorHash hash, b1)]) := by
  set dest := workDirPath ++ "/" ++ HashPathFromHash colorHash hash with hdest
  have hfirst : ∀ hex : (work.find? fun kv => kv.1 == dest).isSome = true,
      CopyToWorkDir colorHash sfs work p1 workDirPath hash = (work, .ok dest) := by
    intro hex
    simp only [CopyToWorkDir, h1]
    rw [if_pos hex]
  refine ⟨hfirst, ?_, ?_⟩
  · by_cases hex : (work.find? fun kv => kv.1 == dest).isSome = true
    · rw [hfirst hex]
      simp only [CopyToWorkDir, h2]
      rw [if_pos hex]
    · have hc1 : CopyToWorkDir colorHash sfs work p1 workDirPath hash =
          (work ++ [(dest, b1)], .ok dest) := by
        simp only [CopyToWorkDir, h1]
        rw [if_neg hex]
      rw [hc1]
      have hex2 : (((work ++ [(dest, b1)]).find? fun kv => kv.1 == dest).isSome) = true := by
        rw [List.find?_isSome]
        exact ⟨(dest, b1), by simp, by simp⟩
      simp only [CopyToWorkDir, h2]
      rw [if_pos hex2]
  · by_cases hex : (work.find? fun kv => kv.1 == dest).isSome = true
    · left
      rw [hfirst hex]
    · right
      simp only [CopyToWorkDir, h1]
      rw [if_neg hex]

/-- Source file system for the dedup witness: two distinct paths with
identical bytes. -/
def demoSrc : List (String × GoFile) := [("p1", .file [1]), ("p2", .file [1])]

/-- Closed instance of `CopyToWorkDir_dedup`: after ingesting p1, ingesting
p2 with the same hash returns the existing destination and leaves the work
area unchanged. -/
theorem CopyToWorkDir_dedup_witness :
    CopyToWorkDir (fun _ => 0) demoSrc
      (CopyToWorkDir (fun _ => 0) demoSrc [] "p1" "w" "h").1 "p2" "w" "h" =
      ((CopyToWorkDir (fun _ => 0) demoSrc [] "p1" "w" "h").1, .ok "w/0-00000-h") := by
  have h := (CopyToWorkDir_dedup (fun _ => 0) demoSrc [] "p1" "p2" "w" "h" [1] [1]
    rfl rfl).2.1
  simpa [HashPathFromHash] using h
